import Mathlib

/-!
# Verification of the p-limit concurrency limiter

A shallow embedding of the p-limit limiter engine (a concurrency-limiting
task runner) together with proofs of its specified properties.

The repository ships its type-level tests (src/index.test-d.ts) and usage
recipes (src/recipes.md); the engine itself (index.js) is not among the
given source files, so the engine is modelled from the specification
(spec.md): every definition below that embeds engine behaviour carries a
doc comment starting with "Modelled from the spec:".

The engine is single-threaded and cooperative: submission, dispatch and
counter updates are synchronous; only the tasks themselves suspend.  We
model it as a deterministic transition system over an explicit limiter
state, driven by events (submit, task completion, concurrency change,
queue clearing) chosen by the environment.  Task identities are the
submission indices 0, 1, 2, ...; an ambient assignment
`beh : Nat → Invocation` tells which invocation was handed to each
submission, so that a trace of events together with `beh` determines the
whole run.
-/

namespace PLimit

/-- Modelled from the spec: the error taxonomy of §7.  `validationError`
for invalid constructor/property arguments, `taskError` for an
error thrown or rejected by a submitted invocation (propagated
unmodified), and `clearedError` for a task discarded by clearQueue under
rejectOnClear; a `clearedError` carries the discarded task's id so each
discarded task receives a distinct error, distinguishable from any
`taskError`. Values and error payloads are represented by naturals. -/
inductive LimitError where
  | validationError : LimitError
  | taskError (e : Nat) : LimitError
  | clearedError (taskId : Nat) : LimitError
deriving DecidableEq, Repr

/-- Modelled from the spec: one unit of submitted work.  A synchronous
function either returns a value or throws synchronously; an
asynchronous invocation eventually settles with a result or an error. -/
inductive Invocation where
  | syncReturns (v : Nat) : Invocation
  | syncThrows (e : Nat) : Invocation
  | asyncSettles (r : Except Nat Nat) : Invocation
deriving Repr

/-- The eventual outcome of running an invocation: a synchronous throw is
captured and surfaces as an error outcome, exactly like an asynchronous
rejection. -/
def Invocation.outcome : Invocation → Except Nat Nat
  | .syncReturns v => .ok v
  | .syncThrows e => .error e
  | .asyncSettles r => r

/-- The settled state of a task's promise. -/
inductive SettledResult where
  | fulfilled (v : Nat) : SettledResult
  | rejected (e : LimitError) : SettledResult
deriving DecidableEq, Repr

/-- Observable promise state returned to a caller. -/
inductive PromiseState where
  | pending : PromiseState
  | fulfilled (v : Nat) : PromiseState
  | rejected (e : LimitError) : PromiseState
deriving DecidableEq, Repr

/-- Settle a promise according to a task's own outcome: fulfilled on
success, rejected with a `taskError` on failure. -/
def settleOutcome : Except Nat Nat → SettledResult
  | .ok v => .fulfilled v
  | .error e => .rejected (.taskError e)

/-- Modelled from the spec: the Limiter Core state of §3.  `queue` holds
the ids of not-yet-dispatched Task Records in FIFO order, `active` the
ids of in-flight tasks, `settled` the settled promises (an association
list id ↦ result), and `discarded` the ids discarded by `clearQueue`
under `rejectOnClear = false`, whose promises stay pending forever.
`nextId` is the number of submissions so far; ids are submission
indices. The unbounded concurrency sentinel is not modelled; the limit
is a positive integer. -/
structure LimiterState where
  concurrencyLimit : Nat
  rejectOnClear : Bool
  nextId : Nat
  queue : List Nat
  active : List Nat
  settled : List (Nat × SettledResult)
  discarded : List Nat
deriving DecidableEq, Repr

/-- `activeCount` reads the number of in-flight tasks. -/
def LimiterState.activeCount (s : LimiterState) : Nat := s.active.length

/-- `pendingCount` is derived: the current queue length. -/
def LimiterState.pendingCount (s : LimiterState) : Nat := s.queue.length

/-- Look up a settled result by task id in the association list. -/
def findSettled : List (Nat × SettledResult) → Nat → Option SettledResult
  | [], _ => none
  | (i, r) :: rest, id => if i = id then some r else findSettled rest id

/-- The observable state of the promise returned for submission `id`:
its settled result if it has settled, otherwise pending (queued,
in-flight or discarded-without-rejection promises are all pending). -/
def LimiterState.promiseState (s : LimiterState) (id : Nat) : PromiseState :=
  match findSettled s.settled id with
  | some (.fulfilled v) => .fulfilled v
  | some (.rejected e) => .rejected e
  | none => .pending

/-- Modelled from the spec: the dispatch loop of §4.1 — while
`activeCount < concurrencyLimit` and the queue is non-empty, remove the
head Task Record, increment the active count and begin executing it.
The loop moves exactly `min (concurrencyLimit - activeCount)
(queue.length)` records from the front of the queue into the in-flight
set, in queue order. -/
def dispatch (s : LimiterState) : LimiterState :=
  let k := min (s.concurrencyLimit - s.active.length) s.queue.length
  { s with queue := s.queue.drop k, active := s.active ++ s.queue.take k }

/-- Events driving a run, chosen by the environment: a submission, the
completion of an in-flight task, an assignment to the `concurrency`
property, or a `clearQueue()` call. -/
inductive Event where
  | submit : Event
  | complete (id : Nat) : Event
  | setConcurrency (n : Nat) : Event
  | clearQueue : Event
deriving DecidableEq, Repr

/-- Modelled from the spec: `submit` (§4.1) appends a fresh Task Record
to the queue and immediately attempts dispatch.  The promise (the fresh
id `s.nextId`) is handed back synchronously, pending. -/
def submitStep (s : LimiterState) : LimiterState :=
  dispatch { s with queue := s.queue ++ [s.nextId], nextId := s.nextId + 1 }

/-- Modelled from the spec: completion of in-flight task `id` (§4.1) —
decrement the active count, settle the task's promise according to its
own outcome, then re-invoke the dispatch loop.  Completion of a task
that is not in flight cannot occur; it is a no-op here. -/
def completeStep (beh : Nat → Invocation) (s : LimiterState) (id : Nat) :
    LimiterState :=
  if id ∈ s.active then
    dispatch { s with
      active := s.active.erase id
      settled := (id, settleOutcome (beh id).outcome) :: s.settled }
  else s

/-- Modelled from the spec: assigning `concurrency := n` (§4.1) with a
valid positive integer updates the limit and immediately re-invokes the
dispatch loop; an invalid value raises a ValidationError at the call
site and leaves the state unchanged (modelled as a no-op step; the
façade-level validation is `setConcurrencyProp`). -/
def setConcurrencyStep (s : LimiterState) (n : Nat) : LimiterState :=
  if 1 ≤ n then dispatch { s with concurrencyLimit := n } else s

/-- Modelled from the spec: `clearQueue()` (§4.1) atomically removes all
queued Task Records.  Under `rejectOnClear = true` each discarded
record's promise is rejected with its own cleared error; under the
default `false` the discarded promises are left permanently unsettled.
In-flight tasks are unaffected. -/
def clearQueueStep (s : LimiterState) : LimiterState :=
  if s.rejectOnClear then
    { s with
      queue := []
      settled := s.queue.map (fun id => (id, .rejected (.clearedError id)))
        ++ s.settled }
  else
    { s with queue := [], discarded := s.queue ++ s.discarded }

/-- One transition of the limiter. -/
def step (beh : Nat → Invocation) (s : LimiterState) : Event → LimiterState
  | .submit => submitStep s
  | .complete id => completeStep beh s id
  | .setConcurrency n => setConcurrencyStep s n
  | .clearQueue => clearQueueStep s

/-- Run a list of events from a state. -/
def run (beh : Nat → Invocation) (s : LimiterState) : List Event →
    LimiterState
  | [] => s
  | e :: es => run beh (step beh s e) es

/-- Modelled from the spec: a freshly constructed limiter with
concurrency limit `c` and the given `rejectOnClear` flag: empty queue,
nothing in flight, no submissions yet. -/
def initState (c : Nat) (roc : Bool) : LimiterState :=
  { concurrencyLimit := c
    rejectOnClear := roc
    nextId := 0
    queue := []
    active := []
    settled := []
    discarded := [] }

/-! ## Construction, validation and the caller-facing façade -/

/-- Modelled from the spec: a caller-supplied concurrency value as seen
at the JavaScript boundary — an integer (possibly non-positive) or some
non-integer number such as 1.5.  The unbounded sentinel is not
modelled. -/
inductive ConcurrencyValue where
  | intVal (n : Int) : ConcurrencyValue
  | nonIntegerNumber : ConcurrencyValue
deriving DecidableEq, Repr

/-- Modelled from the spec: validation of a concurrency value (§4.1,
§7) — it must be a positive integer, otherwise a ValidationError is
raised synchronously at the call site. -/
def parseConcurrency : ConcurrencyValue → Except LimitError Nat
  | .intVal n => if 1 ≤ n then .ok n.toNat else .error .validationError
  | .nonIntegerNumber => .error .validationError

/-- Modelled from the spec: a caller-supplied option value — a boolean,
or some non-boolean value (such as the string seen in the type test
index.test-d.ts line 29). -/
inductive OptionValue where
  | boolVal (b : Bool) : OptionValue
  | nonBool : OptionValue
deriving DecidableEq, Repr

/-- Modelled from the spec: validation of the optional `rejectOnClear`
option (§6, §7) — optional with default `false`; a non-boolean value is
a ValidationError raised synchronously. -/
def parseRejectOnClear : Option OptionValue → Except LimitError Bool
  | none => .ok false
  | some (.boolVal b) => .ok b
  | some .nonBool => .error .validationError

/-- Modelled from the spec: the constructor argument (§6) — either a
bare concurrency number or an options structure. -/
inductive PLimitArg where
  | bare (c : ConcurrencyValue) : PLimitArg
  | options (c : ConcurrencyValue) (rejectOnClear : Option OptionValue) :
      PLimitArg
deriving DecidableEq, Repr

/-- Modelled from the spec: the `pLimit` constructor (§6).  Validates
its arguments synchronously: an invalid concurrency or a non-boolean
`rejectOnClear` is a `validationError` returned at the call site — no
limiter state (hence no task promise) is ever produced in that case. -/
def pLimit : PLimitArg → Except LimitError LimiterState
  | .bare c => (parseConcurrency c).map (fun n => initState n false)
  | .options c roc =>
      match parseConcurrency c, parseRejectOnClear roc with
      | .ok n, .ok b => .ok (initState n b)
      | .error e, _ => .error e
      | _, .error e => .error e

/-- Modelled from the spec: assigning to the `concurrency` property
(§4.1) — validates the value (ValidationError on failure, state
untouched), then updates the limit and immediately re-invokes the
dispatch loop. -/
def setConcurrencyProp (s : LimiterState) (c : ConcurrencyValue) :
    Except LimitError LimiterState :=
  (parseConcurrency c).map (fun n => dispatch { s with concurrencyLimit := n })

/-- Modelled from the spec: the shape of a caller-supplied callable —
a plain synchronous function (returns a value or throws synchronously)
or an asynchronous, promise-returning one.  Arguments are a list of
naturals; the result is the value returned or the error thrown. -/
inductive CallableShape where
  | syncFn (f : List Nat → Except Nat Nat) : CallableShape
  | asyncFn (f : List Nat → Except Nat Nat) : CallableShape

/-- The invocation `() => fn(...args)` formed by currying `args` onto
the callable: running it later applies the function to exactly these
arguments. -/
def CallableShape.applyTo : CallableShape → List Nat → Invocation
  | .syncFn f, args =>
      match f args with
      | .ok v => .syncReturns v
      | .error e => .syncThrows e
  | .asyncFn f, args => .asyncSettles (f args)

/-- Modelled from the spec: the callable façade `limit(fn, ...args)`
(§4.2) — equivalent to `submit(() => fn(...args))`.  No validation is
performed on `fn`; the promise (the fresh id) is returned synchronously
and any synchronous throw inside the invocation is captured, surfacing
only as that promise's eventual rejection.  The `Except` codomain makes
an escaping exception representable; the definition returns `.ok`
unconditionally, the submitted invocation recorded alongside. -/
def limitCall (fn : CallableShape) (args : List Nat) (s : LimiterState) :
    Except LimitError (LimiterState × Nat × Invocation) :=
  .ok (submitStep s, s.nextId, fn.applyTo args)

/-- Modelled from the spec: the factory adapter `limitFunction(fn,
options)` (§4.3) — validates at construction that the wrapped callable
is asynchronous-shaped, failing with a ValidationError otherwise, and
builds a fresh limiter bound permanently to the function; no
independent logic beyond that composition. -/
def limitFunction (fn : CallableShape) (c : ConcurrencyValue)
    (roc : Option OptionValue) :
    Except LimitError (LimiterState × (List Nat → Invocation)) :=
  match fn with
  | .syncFn _ => .error .validationError
  | .asyncFn f =>
      match parseConcurrency c, parseRejectOnClear roc with
      | .ok n, .ok b => .ok (initState n b, fun args => .asyncSettles (f args))
      | .error e, _ => .error e
      | _, .error e => .error e

/-! ## The Task Record lifecycle invariant

Spec §3: "a Task Record is either in the Queue, in-flight, or settled —
never in two of these states simultaneously" (with the fourth terminal
station, discarded-without-settling, reached only through `clearQueue`
under the default configuration).  We record this as well-formedness of
a state and prove it is preserved by every transition. -/

/-- All Task Record ids a state accounts for: queued, in flight,
settled, or discarded without settling. -/
def allIds (s : LimiterState) : List Nat :=
  s.queue ++ s.active ++ s.settled.map Prod.fst ++ s.discarded

/-- Well-formedness: the accounted ids are exactly the submission
indices below `nextId`, no id is in two stations at once, and the queue
lists ids in strict submission order. -/
structure WF (s : LimiterState) : Prop where
  nodup : (allIds s).Nodup
  mem_iff : ∀ id, id ∈ allIds s ↔ id < s.nextId
  sorted : s.queue.Pairwise (· < ·)

theorem wf_init (c : Nat) (roc : Bool) : WF (initState c roc) := by
  constructor <;> simp [allIds, initState]

theorem wf_of_perm {s t : LimiterState} (h : WF s)
    (hp : (allIds t).Perm (allIds s)) (hn : t.nextId = s.nextId)
    (hq : t.queue.Pairwise (· < ·)) : WF t where
  nodup := hp.symm.nodup h.nodup
  mem_iff := fun id => by rw [hp.mem_iff, h.mem_iff, hn]
  sorted := hq

theorem perm_dispatch_core (q a : List Nat) (k : Nat) :
    (q.drop k ++ (a ++ q.take k)).Perm (q ++ a) := by
  have h1 : (q.drop k ++ (a ++ q.take k)).Perm
      (q.drop k ++ (q.take k ++ a)) :=
    List.Perm.append_left _ List.perm_append_comm
  have h3 : ((q.drop k ++ q.take k) ++ a).Perm ((q.take k ++ q.drop k) ++ a) :=
    List.Perm.append_right _ List.perm_append_comm
  have h4 : ((q.take k ++ q.drop k) ++ a).Perm (q ++ a) := by
    rw [List.take_append_drop]
  refine h1.trans ?_
  rw [← List.append_assoc]
  exact h3.trans h4

theorem allIds_dispatch (s : LimiterState) :
    (allIds (dispatch s)).Perm (allIds s) := by
  have h := perm_dispatch_core s.queue s.active
    (min (s.concurrencyLimit - s.active.length) s.queue.length)
  simpa [allIds, dispatch, List.append_assoc] using
    ((h.append_right (s.settled.map Prod.fst)).append_right s.discarded)

theorem wf_dispatch {s : LimiterState} (h : WF s) : WF (dispatch s) :=
  wf_of_perm h (allIds_dispatch s) rfl
    (List.Pairwise.sublist (List.drop_sublist _ _) h.sorted)

theorem queue_subset_allIds {s : LimiterState} {x : Nat}
    (hx : x ∈ s.queue) : x ∈ allIds s := by
  simp [allIds, hx]

/-- The queue extended by the fresh id is still in strict submission
order: every already-queued id is smaller than `nextId`. -/
theorem sorted_enqueue {s : LimiterState} (h : WF s) :
    (s.queue ++ [s.nextId]).Pairwise (· < ·) := by
  refine List.pairwise_append.mpr ⟨h.sorted, List.pairwise_singleton _ _,
    fun x hx y hy => ?_⟩
  have hxlt := (h.mem_iff x).mp (queue_subset_allIds hx)
  simp only [List.mem_singleton] at hy
  omega

theorem wf_submit {s : LimiterState} (h : WF s) : WF (submitStep s) := by
  refine wf_dispatch ?_
  have hnot : s.nextId ∉ allIds s := fun hm => by
    have := (h.mem_iff s.nextId).mp hm; omega
  have hperm :
      (allIds
        { s with queue := s.queue ++ [s.nextId], nextId := s.nextId + 1 }).Perm
        (s.nextId :: allIds s) := by
    simp only [allIds, List.append_assoc, List.singleton_append]
    exact @List.perm_middle Nat s.nextId s.queue
      (s.active ++ (s.settled.map Prod.fst ++ s.discarded))
  constructor
  · exact hperm.symm.nodup (List.nodup_cons.mpr ⟨hnot, h.nodup⟩)
  · intro id
    rw [hperm.mem_iff]
    simp only [List.mem_cons, h.mem_iff]
    omega
  · exact sorted_enqueue h

theorem wf_complete {s : LimiterState} (beh : Nat → Invocation) (id : Nat)
    (h : WF s) : WF (completeStep beh s id) := by
  unfold completeStep
  by_cases hid : id ∈ s.active
  · rw [if_pos hid]
    refine wf_dispatch (wf_of_perm h ?_ rfl h.sorted)
    have ha : s.active.Perm (id :: s.active.erase id) :=
      List.perm_cons_erase hid
    have c1 : ((s.queue ++ s.active.erase id) ++
        (id :: s.settled.map Prod.fst)).Perm
        (id :: ((s.queue ++ s.active.erase id) ++ s.settled.map Prod.fst)) :=
      List.perm_middle
    have c3 : (id :: ((s.queue ++ s.active.erase id) ++
        s.settled.map Prod.fst)).Perm
        ((s.queue ++ (id :: s.active.erase id)) ++ s.settled.map Prod.fst) :=
      List.Perm.append_right _ List.perm_middle.symm
    have c2 : ((s.queue ++ (id :: s.active.erase id)) ++
        s.settled.map Prod.fst).Perm
        ((s.queue ++ s.active) ++ s.settled.map Prod.fst) :=
      List.Perm.append_right _ (List.Perm.append_left _ ha.symm)
    have core := (c1.trans c3).trans c2
    simpa [allIds, List.append_assoc] using core.append_right s.discarded
  · rw [if_neg hid]
    exact h

theorem wf_setConcurrency {s : LimiterState} (n : Nat) (h : WF s) :
    WF (setConcurrencyStep s n) := by
  unfold setConcurrencyStep
  by_cases hn : 1 ≤ n
  · rw [if_pos hn]
    exact wf_dispatch (wf_of_perm h (List.Perm.refl _) rfl h.sorted)
  · rw [if_neg hn]
    exact h

theorem wf_clear {s : LimiterState} (h : WF s) : WF (clearQueueStep s) := by
  unfold clearQueueStep
  by_cases hr : s.rejectOnClear
  · rw [if_pos hr]
    refine wf_of_perm h ?_ rfl List.Pairwise.nil
    simpa [allIds, List.append_assoc, List.map_map, Function.comp_def] using
      List.perm_append_comm_assoc s.active s.queue
        (s.settled.map Prod.fst ++ s.discarded)
  · rw [if_neg hr]
    refine wf_of_perm h ?_ rfl List.Pairwise.nil
    simpa [allIds, List.append_assoc] using
      List.perm_append_comm_assoc (s.active ++ s.settled.map Prod.fst)
        s.queue s.discarded

theorem wf_step (beh : Nat → Invocation) {s : LimiterState} (h : WF s) :
    ∀ e, WF (step beh s e)
  | .submit => wf_submit h
  | .complete id => wf_complete beh id h
  | .setConcurrency n => wf_setConcurrency n h
  | .clearQueue => wf_clear h

theorem wf_run (beh : Nat → Invocation) {s : LimiterState} (h : WF s) :
    ∀ events, WF (run beh s events)
  | [] => h
  | e :: es => wf_run beh (wf_step beh h e) es

/-! ## Promise lookup lemmas -/

theorem findSettled_eq_none {st : List (Nat × SettledResult)} {id : Nat}
    (h : id ∉ st.map Prod.fst) : findSettled st id = none := by
  induction st with
  | nil => rfl
  | cons p rest ih =>
    obtain ⟨i, r⟩ := p
    simp only [List.map_cons, List.mem_cons] at h
    push_neg at h
    show (if i = id then some r else findSettled rest id) = none
    rw [if_neg (fun he => h.1 he.symm)]
    exact ih h.2

theorem findSettled_isSome_of_mem {st : List (Nat × SettledResult)} {id : Nat}
    (h : id ∈ st.map Prod.fst) : ∃ r, findSettled st id = some r := by
  induction st with
  | nil => simp at h
  | cons p rest ih =>
    obtain ⟨i, r⟩ := p
    by_cases he : i = id
    · exact ⟨r, by simp [findSettled, he]⟩
    · have : id ∈ rest.map Prod.fst := by
        simp only [List.map_cons, List.mem_cons] at h
        rcases h with h | h
        · exact absurd h.symm he
        · exact h
      obtain ⟨r2, hr2⟩ := ih this
      exact ⟨r2, by simp [findSettled, he, hr2]⟩

theorem findSettled_clearMap {q : List Nat}
    {st : List (Nat × SettledResult)} {id : Nat} (hid : id ∈ q) :
    findSettled
      (q.map (fun i => (i, SettledResult.rejected (.clearedError i))) ++ st)
      id = some (.rejected (.clearedError id)) := by
  induction q with
  | nil => cases hid
  | cons x rest ih =>
    rcases List.mem_cons.mp hid with rfl | hmem
    · simp [findSettled]
    · by_cases he : x = id
      · subst he; simp [findSettled]
      · simp only [List.map_cons, List.cons_append]
        show (if x = id then _ else _) = _
        rw [if_neg he]
        exact ih hmem

/-- Disjointness of the four lifecycle stations, extracted from
well-formedness. -/
theorem wf_disjoint {s : LimiterState} (h : WF s) {id : Nat} :
    (id ∈ s.queue → id ∉ s.active ∧ id ∉ s.settled.map Prod.fst ∧
      id ∉ s.discarded) ∧
    (id ∈ s.active → id ∉ s.queue ∧ id ∉ s.settled.map Prod.fst ∧
      id ∉ s.discarded) ∧
    (id ∈ s.discarded → id ∉ s.queue ∧ id ∉ s.active ∧
      id ∉ s.settled.map Prod.fst) := by
  have hn := h.nodup
  simp only [allIds, List.nodup_append] at hn
  obtain ⟨⟨⟨hq, ha, hqa⟩, hm, hqam⟩, hd, hqamd⟩ := hn
  refine ⟨fun hiq => ⟨?_, ?_, ?_⟩, fun hia => ⟨?_, ?_, ?_⟩,
    fun hid => ⟨?_, ?_, ?_⟩⟩
  · exact fun hia => hqa hiq hia
  · exact fun him => hqam (by simp [hiq]) him
  · exact fun hid => hqamd (by simp [hiq]) hid
  · exact fun hiq => hqa hiq hia
  · exact fun him => hqam (by simp [hia]) him
  · exact fun hid => hqamd (by simp [hia]) hid
  · exact fun hiq => hqamd (by simp [hiq]) hid
  · exact fun hia => hqamd (by simp [hia]) hid
  · exact fun him => hqamd (by simp [him]) hid

/-- Under well-formedness a queued, in-flight or discarded task's
promise is still pending. -/
theorem wf_promise_pending {s : LimiterState} (h : WF s) {id : Nat}
    (hid : id ∈ s.queue ∨ id ∈ s.active ∨ id ∈ s.discarded) :
    s.promiseState id = .pending := by
  have hnot : id ∉ s.settled.map Prod.fst := by
    rcases hid with hid | hid | hid
    · exact ((wf_disjoint h).1 hid).2.1
    · exact ((wf_disjoint h).2.1 hid).2.1
    · exact ((wf_disjoint h).2.2 hid).2.2
  simp [LimiterState.promiseState, findSettled_eq_none hnot]

/-! ## Counting and bound lemmas -/

theorem dispatch_activeCount (s : LimiterState) :
    (dispatch s).activeCount = s.activeCount +
      min (s.concurrencyLimit - s.activeCount) s.pendingCount := by
  simp only [dispatch, LimiterState.activeCount, LimiterState.pendingCount,
    List.length_append, List.length_take]
  omega

theorem dispatch_pendingCount (s : LimiterState) :
    (dispatch s).pendingCount = s.pendingCount -
      min (s.concurrencyLimit - s.activeCount) s.pendingCount := by
  simp only [dispatch, LimiterState.activeCount, LimiterState.pendingCount,
    List.length_drop]

theorem dispatch_bound {s : LimiterState}
    (h : s.activeCount ≤ s.concurrencyLimit) :
    (dispatch s).activeCount ≤ (dispatch s).concurrencyLimit := by
  have hd := dispatch_activeCount s
  have hl : (dispatch s).concurrencyLimit = s.concurrencyLimit := rfl
  omega

theorem dispatch_saturates {s : LimiterState}
    (h : s.activeCount ≤ s.concurrencyLimit) :
    (dispatch s).queue ≠ [] → (dispatch s).activeCount = s.concurrencyLimit := by
  intro hne
  have hq : (dispatch s).pendingCount ≠ 0 := by
    simpa [LimiterState.pendingCount, List.length_eq_zero] using hne
  have hdq := dispatch_pendingCount s
  have hd := dispatch_activeCount s
  omega

theorem step_limit (beh : Nat → Invocation) (s : LimiterState) :
    ∀ e : Event, (∀ n, e ≠ Event.setConcurrency n) →
      (step beh s e).concurrencyLimit = s.concurrencyLimit
  | .submit, _ => rfl
  | .complete id, _ => by
      show (completeStep beh s id).concurrencyLimit = s.concurrencyLimit
      unfold completeStep
      split <;> rfl
  | .setConcurrency n, h => absurd rfl (h n)
  | .clearQueue, _ => by
      show (clearQueueStep s).concurrencyLimit = s.concurrencyLimit
      unfold clearQueueStep
      split <;> rfl

theorem step_bound (beh : Nat → Invocation) {s : LimiterState}
    {e : Event} (he : ∀ n, e ≠ Event.setConcurrency n)
    (h : s.activeCount ≤ s.concurrencyLimit) :
    (step beh s e).activeCount ≤ (step beh s e).concurrencyLimit := by
  cases e with
  | submit =>
      show (submitStep s).activeCount ≤ (submitStep s).concurrencyLimit
      unfold submitStep
      exact dispatch_bound h
  | complete id =>
      show (completeStep beh s id).activeCount ≤
        (completeStep beh s id).concurrencyLimit
      unfold completeStep
      split
      · exact dispatch_bound
          (le_trans (List.Sublist.length_le (List.erase_sublist _ _)) h)
      · exact h
  | setConcurrency n => exact absurd rfl (he n)
  | clearQueue =>
      show (clearQueueStep s).activeCount ≤ (clearQueueStep s).concurrencyLimit
      unfold clearQueueStep
      split
      · exact h
      · exact h

theorem run_bound (beh : Nat → Invocation) {s : LimiterState}
    (events : List Event)
    (hnoset : ∀ n, Event.setConcurrency n ∉ events)
    (h : s.activeCount ≤ s.concurrencyLimit) :
    (run beh s events).activeCount ≤ (run beh s events).concurrencyLimit := by
  induction events generalizing s with
  | nil => exact h
  | cons e es ih =>
    have he : ∀ n, e ≠ Event.setConcurrency n := fun n heq =>
      hnoset n (by rw [← heq]; exact List.mem_cons_self e es)
    exact ih (fun n hm => hnoset n (List.mem_cons_of_mem e hm))
      (step_bound beh he h)

theorem run_limit (beh : Nat → Invocation) {s : LimiterState}
    (events : List Event)
    (hnoset : ∀ n, Event.setConcurrency n ∉ events) :
    (run beh s events).concurrencyLimit = s.concurrencyLimit := by
  induction events generalizing s with
  | nil => rfl
  | cons e es ih =>
    have he : ∀ n, e ≠ Event.setConcurrency n := fun n heq =>
      hnoset n (by rw [← heq]; exact List.mem_cons_self e es)
    rw [run, ih (fun n hm => hnoset n (List.mem_cons_of_mem e hm)),
      step_limit beh s e he]

/-- A sample task behaviour used by concrete witnesses: submission `i`
is an asynchronous invocation that eventually fulfils with `i`. -/
def behSample : Nat → Invocation := fun i => .asyncSettles (.ok i)

/-- C1: for every sequence of submissions/completions/clears on a
limiter with concurrency limit C ≥ 1 (no concurrency reassignment), at
every instant — after every prefix of events — `activeCount ≤ C`;
moreover a concurrency reassignment never removes an in-flight task
(the old in-flight list is a prefix of the new one), and while the
count transiently exceeds the limit after a decrease, every completion
strictly decreases `activeCount` by one (no queued task is dispatched),
so the bound is restored as in-flight tasks complete. -/
theorem claim_C1 (beh : Nat → Invocation) (C : Nat) (roc : Bool)
    (hC : 1 ≤ C) (events : List Event)
    (hnoset : ∀ n, Event.setConcurrency n ∉ events) :
    (∀ k, (run beh (initState C roc) (events.take k)).activeCount ≤ C) ∧
    (∀ s : LimiterState, ∀ n, ∃ t,
      (step beh s (.setConcurrency n)).active = s.active ++ t) ∧
    (∀ s : LimiterState, ∀ id, id ∈ s.active →
      s.concurrencyLimit < s.activeCount →
      (step beh s (.complete id)).activeCount = s.activeCount - 1) := by
  refine ⟨fun k => ?_, fun s n => ?_, fun s id hid hover => ?_⟩
  · have hst : ∀ n, Event.setConcurrency n ∉ events.take k :=
      fun n hm => hnoset n (List.take_subset k events hm)
    have hb := run_bound beh (s := initState C roc) (events.take k) hst
      (by simp [initState, LimiterState.activeCount])
    have hl := run_limit beh (s := initState C roc) (events.take k) hst
    have hl2 : (initState C roc).concurrencyLimit = C := rfl
    omega
  · show ∃ t, (setConcurrencyStep s n).active = s.active ++ t
    unfold setConcurrencyStep
    by_cases hn : 1 ≤ n
    · rw [if_pos hn]
      exact ⟨_, rfl⟩
    · rw [if_neg hn]
      exact ⟨[], (List.append_nil _).symm⟩
  · show (completeStep beh s id).activeCount = s.activeCount - 1
    unfold completeStep
    rw [if_pos hid]
    have hlen : (s.active.erase id).length = s.active.length - 1 :=
      List.length_erase_of_mem hid
    have hpos : 0 < s.active.length := List.length_pos_of_mem hid
    have hd := dispatch_activeCount
      { s with active := s.active.erase id,
               settled := (id, settleOutcome (beh id).outcome) :: s.settled }
    simp only [LimiterState.activeCount, LimiterState.pendingCount] at hd hover ⊢
    simp only [hlen] at hd
    omega

theorem claim_C1_witness :
    (run behSample (initState 2 false)
      ([Event.submit, Event.submit, Event.submit].take 3)).activeCount ≤ 2 :=
  (claim_C1 behSample 2 false (by decide)
    [Event.submit, Event.submit, Event.submit]
    (fun n h => by simp at h)).1 3

/-! ## FIFO dispatch -/

/-- In a strictly increasing list, anything smaller than a member of a
front segment and itself a member lies in the same front segment. -/
theorem take_mem_of_lt_of_mem {l : List Nat} {a b k : Nat}
    (hs : l.Pairwise (· < ·)) (ha : a ∈ l) (hab : a < b)
    (hb : b ∈ l.take k) : a ∈ l.take k := by
  induction l generalizing k with
  | nil => cases ha
  | cons x t ih =>
    cases k with
    | zero => simp at hb
    | succ k =>
      rw [List.take_succ_cons] at hb ⊢
      rcases List.mem_cons.mp hb with rfl | hbt
      · rcases List.mem_cons.mp ha with rfl | hat
        · exact absurd hab (lt_irrefl _)
        · exact absurd ((List.pairwise_cons.mp hs).1 a hat) (lt_asymm hab)
      · rcases List.mem_cons.mp ha with rfl | hat
        · exact List.mem_cons_self _ _
        · exact List.mem_cons_of_mem _
            (ih (List.pairwise_cons.mp hs).2 hat hbt)

theorem mem_dispatch_active {t : LimiterState} {x : Nat} :
    x ∈ (dispatch t).active ↔ x ∈ t.active ∨
      x ∈ t.queue.take
        (min (t.concurrencyLimit - t.active.length) t.queue.length) := by
  simp [dispatch]

/-- The dispatch loop takes a front segment of the queue: if it
dispatches `b`, it also dispatches any still-queued earlier submission
`a < b`. -/
theorem dispatch_fifo {t : LimiterState} {a b : Nat}
    (hs : t.queue.Pairwise (· < ·)) (ha : a ∈ t.queue) (hab : a < b)
    (hbna : b ∉ t.active) (hb : b ∈ (dispatch t).active) :
    a ∈ (dispatch t).active := by
  rcases mem_dispatch_active.mp hb with h | h
  · exact absurd h hbna
  · exact mem_dispatch_active.mpr (Or.inr (take_mem_of_lt_of_mem hs ha hab h))

/-- C2: queue dispatch is strict FIFO.  In any reachable state the
queue lists task ids (= submission indices) in strictly increasing
submission order — no reordering or priority is applied — and whenever
a next event dispatches a queued task `b`, every task `a` submitted
earlier (`a < b`) that is still queued is dispatched by that same
event, so among queued tasks the one submitted first is dispatched
first. -/
theorem claim_C2 (beh : Nat → Invocation) (C : Nat) (roc : Bool)
    (events : List Event) :
    (run beh (initState C roc) events).queue.Pairwise (· < ·) ∧
    (∀ (e : Event) (a b : Nat),
      a ∈ (run beh (initState C roc) events).queue →
      b ∈ (run beh (initState C roc) events).queue →
      a < b →
      b ∈ (step beh (run beh (initState C roc) events) e).active →
      a ∈ (step beh (run beh (initState C roc) events) e).active) := by
  have hwf : WF (run beh (initState C roc) events) :=
    wf_run beh (wf_init C roc) events
  refine ⟨hwf.sorted, fun e a b ha hb hab hbact => ?_⟩
  generalize hs : run beh (initState C roc) events = s at *
  cases e with
  | submit =>
      exact dispatch_fifo (sorted_enqueue hwf) (List.mem_append_left _ ha)
        hab ((wf_disjoint hwf).1 hb).1 hbact
  | complete id =>
      show a ∈ (completeStep beh s id).active
      have hbact2 : b ∈ (completeStep beh s id).active := hbact
      by_cases hid : id ∈ s.active
      · have hcs : completeStep beh s id = dispatch
            { s with active := s.active.erase id,
                     settled := (id, settleOutcome (beh id).outcome) ::
                       s.settled } := by
          unfold completeStep
          rw [if_pos hid]
        rw [hcs] at hbact2 ⊢
        refine dispatch_fifo hwf.sorted ha hab ?_ hbact2
        exact fun hmem =>
          ((wf_disjoint hwf).1 hb).1 (List.mem_of_mem_erase hmem)
      · have hcs : completeStep beh s id = s := by
          unfold completeStep
          rw [if_neg hid]
        rw [hcs] at hbact2
        exact absurd hbact2 ((wf_disjoint hwf).1 hb).1
  | setConcurrency n =>
      show a ∈ (setConcurrencyStep s n).active
      have hbact2 : b ∈ (setConcurrencyStep s n).active := hbact
      by_cases hn : 1 ≤ n
      · have hcs : setConcurrencyStep s n =
            dispatch { s with concurrencyLimit := n } := by
          unfold setConcurrencyStep
          rw [if_pos hn]
        rw [hcs] at hbact2 ⊢
        exact dispatch_fifo hwf.sorted ha hab ((wf_disjoint hwf).1 hb).1 hbact2
      · have hcs : setConcurrencyStep s n = s := by
          unfold setConcurrencyStep
          rw [if_neg hn]
        rw [hcs] at hbact2
        exact absurd hbact2 ((wf_disjoint hwf).1 hb).1
  | clearQueue =>
      have hca : (clearQueueStep s).active = s.active := by
        unfold clearQueueStep
        split <;> rfl
      have hbact2 : b ∈ (clearQueueStep s).active := hbact
      rw [hca] at hbact2
      exact absurd hbact2 ((wf_disjoint hwf).1 hb).1

theorem claim_C2_witness :
    1 ∈ (step behSample (run behSample (initState 1 false)
      [Event.submit, Event.submit, Event.submit])
      (Event.setConcurrency 3)).active :=
  (claim_C2 behSample 1 false [Event.submit, Event.submit, Event.submit]).2
    (Event.setConcurrency 3) 1 2 (by decide) (by decide) (by decide)
    (by decide)

/-! ## Counting: pendingCount and unsettled submissions -/

theorem active_subset_allIds {s : LimiterState} {x : Nat}
    (hx : x ∈ s.active) : x ∈ allIds s := by
  simp [allIds, hx]

theorem promiseState_ne_pending_of_settled {s : LimiterState} {id : Nat}
    (h : id ∈ s.settled.map Prod.fst) :
    s.promiseState id ≠ .pending := by
  obtain ⟨r, hr⟩ := findSettled_isSome_of_mem h
  cases r <;> simp [LimiterState.promiseState, hr]

/-- The number of unsettled submissions a caller still waits on: the
submissions whose promise is pending and that were not discarded by a
`clearQueue` under the default configuration. -/
def unsettledCount (s : LimiterState) : Nat :=
  ((List.range s.nextId).filter
    (fun id => decide (s.promiseState id = PromiseState.pending ∧
      id ∉ s.discarded))).length

/-- C7: in every reachable state, `pendingCount` is exactly the number
of not-yet-dispatched task records held in the queue; no submission is
counted both as pending and as active; and `activeCount + pendingCount`
equals the number of unsettled, undiscarded submissions. -/
theorem claim_C7 (beh : Nat → Invocation) (C : Nat) (roc : Bool)
    (events : List Event) :
    (run beh (initState C roc) events).pendingCount =
      (run beh (initState C roc) events).queue.length ∧
    (∀ id, ¬(id ∈ (run beh (initState C roc) events).queue ∧
      id ∈ (run beh (initState C roc) events).active)) ∧
    (run beh (initState C roc) events).activeCount +
      (run beh (initState C roc) events).pendingCount =
      unsettledCount (run beh (initState C roc) events) := by
  have hwf : WF (run beh (initState C roc) events) :=
    wf_run beh (wf_init C roc) events
  generalize hs : run beh (initState C roc) events = s at *
  refine ⟨rfl, fun id hqa => ((wf_disjoint hwf).1 hqa.1).1 hqa.2, ?_⟩
  have hqa_sub : (s.queue ++ s.active).Sublist (allIds s) :=
    (List.sublist_append_left (s.queue ++ s.active)
      (s.settled.map Prod.fst)).trans
      (List.sublist_append_left _ s.discarded)
  have hnodup_qa : (s.queue ++ s.active).Nodup :=
    hqa_sub.nodup hwf.nodup
  have hmemiff : ∀ x, x ∈ (List.range s.nextId).filter
      (fun id => decide (s.promiseState id = PromiseState.pending ∧
        id ∉ s.discarded)) ↔ x ∈ s.queue ++ s.active := by
    intro x
    simp only [List.mem_filter, List.mem_range, decide_eq_true_eq,
      List.mem_append]
    constructor
    · rintro ⟨hlt, hpend, hnd⟩
      have hx : x ∈ allIds s := (hwf.mem_iff x).mpr hlt
      simp only [allIds, List.mem_append] at hx
      rcases hx with ((hx | hx) | hx) | hx
      · exact Or.inl hx
      · exact Or.inr hx
      · exact absurd hpend (promiseState_ne_pending_of_settled hx)
      · exact absurd hx hnd
    · intro hx
      have hall : x ∈ allIds s := by
        rcases hx with hx | hx
        · exact queue_subset_allIds hx
        · exact active_subset_allIds hx
      refine ⟨(hwf.mem_iff x).mp hall, ?_, ?_⟩
      · exact wf_promise_pending hwf (by tauto)
      · rcases hx with hx | hx
        · exact ((wf_disjoint hwf).1 hx).2.2
        · exact ((wf_disjoint hwf).2.1 hx).2.2
  have hperm := (List.perm_ext_iff_of_nodup
    (List.Nodup.filter _ (List.nodup_range _)) hnodup_qa).mpr hmemiff
  have hlen := hperm.length_eq
  simp only [List.length_append] at hlen
  simp only [unsettledCount, LimiterState.activeCount,
    LimiterState.pendingCount]
  omega

theorem claim_C7_witness :
    (run behSample (initState 2 true)
        [Event.submit, Event.submit, Event.submit, Event.complete 0]).activeCount +
      (run behSample (initState 2 true)
        [Event.submit, Event.submit, Event.submit,
          Event.complete 0]).pendingCount =
      unsettledCount (run behSample (initState 2 true)
        [Event.submit, Event.submit, Event.submit, Event.complete 0]) :=
  (claim_C7 behSample 2 true
    [Event.submit, Event.submit, Event.submit, Event.complete 0]).2.2

/-! ## clearQueue semantics -/

/-- View a settled result as the observable promise state. -/
def settledToPromise : SettledResult → PromiseState
  | .fulfilled v => .fulfilled v
  | .rejected e => .rejected e

theorem findSettled_cons_self (st : List (Nat × SettledResult)) (id : Nat)
    (r : SettledResult) : findSettled ((id, r) :: st) id = some r := by
  simp [findSettled]

/-- Once discarded, always discarded: no event removes an id from the
discarded station. -/
theorem step_discarded_mono (beh : Nat → Invocation) (s : LimiterState)
    (e : Event) {id : Nat} (hid : id ∈ s.discarded) :
    id ∈ (step beh s e).discarded := by
  cases e with
  | submit => exact hid
  | complete i =>
      show id ∈ (completeStep beh s i).discarded
      unfold completeStep
      split
      · exact hid
      · exact hid
  | setConcurrency n =>
      show id ∈ (setConcurrencyStep s n).discarded
      unfold setConcurrencyStep
      split
      · exact hid
      · exact hid
  | clearQueue =>
      show id ∈ (clearQueueStep s).discarded
      unfold clearQueueStep
      split
      · exact hid
      · exact List.mem_append_right _ hid

theorem discarded_persistent (beh : Nat → Invocation) {id : Nat} :
    ∀ (events : List Event) {s : LimiterState}, id ∈ s.discarded →
      id ∈ (run beh s events).discarded
  | [], _, hid => hid
  | e :: es, s, hid =>
      discarded_persistent beh es (step_discarded_mono beh s e hid)

/-- C3: `clearQueue()` removes every queued (not yet dispatched) task,
leaves every in-flight task running — a later completion still settles
it according to its own outcome; under `rejectOnClear = true` each
discarded task's promise is rejected with its own cleared error, which
is distinct per task and distinguishable from any task failure; under
`rejectOnClear = false` (the default) each discarded task's promise
never settles: it stays pending after every possible continuation of
the run. -/
theorem claim_C3 (beh : Nat → Invocation) (s : LimiterState) (h : WF s) :
    ((step beh s Event.clearQueue).queue = [] ∧
      (step beh s Event.clearQueue).active = s.active) ∧
    (∀ id, id ∈ s.active →
      (step beh (step beh s Event.clearQueue)
        (Event.complete id)).promiseState id =
        settledToPromise (settleOutcome (beh id).outcome)) ∧
    (s.rejectOnClear = true → ∀ id, id ∈ s.queue →
      (step beh s Event.clearQueue).promiseState id =
        .rejected (.clearedError id)) ∧
    (∀ i j : Nat, i ≠ j →
      LimitError.clearedError i ≠ LimitError.clearedError j) ∧
    (∀ i e : Nat, LimitError.clearedError i ≠ LimitError.taskError e) ∧
    (s.rejectOnClear = false → ∀ id, id ∈ s.queue → ∀ events,
      (run beh (step beh s Event.clearQueue) events).promiseState id =
        .pending) := by
  have hq0 : (clearQueueStep s).queue = [] := by
    unfold clearQueueStep
    split <;> rfl
  have ha0 : (clearQueueStep s).active = s.active := by
    unfold clearQueueStep
    split <;> rfl
  refine ⟨⟨hq0, ha0⟩, ?_, ?_, ?_, ?_, ?_⟩
  · intro id hid
    have hid1 : id ∈ (clearQueueStep s).active := by
      rw [ha0]
      exact hid
    have hset : (step beh (step beh s Event.clearQueue)
        (Event.complete id)).settled =
        (id, settleOutcome (beh id).outcome) ::
          (step beh s Event.clearQueue).settled := by
      show (completeStep beh (clearQueueStep s) id).settled = _
      unfold completeStep
      rw [if_pos hid1]
      rfl
    simp only [LimiterState.promiseState, hset, findSettled_cons_self]
    cases houtcome : (beh id).outcome <;> simp [settleOutcome, settledToPromise]
  · intro hroc id hid
    have hset : (step beh s Event.clearQueue).settled =
        s.queue.map (fun i => (i, SettledResult.rejected (.clearedError i)))
          ++ s.settled := by
      show (clearQueueStep s).settled = _
      unfold clearQueueStep
      rw [if_pos hroc]
    simp [LimiterState.promiseState, hset, findSettled_clearMap hid]
  · exact fun i j hne heq => hne (LimitError.clearedError.inj heq)
  · exact fun i e heq => LimitError.noConfusion heq
  · intro hroc id hid events
    have hd1 : id ∈ (step beh s Event.clearQueue).discarded := by
      show id ∈ (clearQueueStep s).discarded
      unfold clearQueueStep
      rw [if_neg (by simp [hroc])]
      exact List.mem_append_left _ hid
    have hwf2 : WF (run beh (step beh s Event.clearQueue) events) :=
      wf_run beh (wf_step beh h Event.clearQueue) events
    exact wf_promise_pending hwf2
      (Or.inr (Or.inr (discarded_persistent beh events hd1)))

theorem claim_C3_witness :
    (step behSample (run behSample (initState 1 false)
      [Event.submit, Event.submit, Event.submit]) Event.clearQueue).queue = []
    ∧ (step behSample (run behSample (initState 1 false)
      [Event.submit, Event.submit, Event.submit]) Event.clearQueue).active =
      (run behSample (initState 1 false)
        [Event.submit, Event.submit, Event.submit]).active :=
  (claim_C3 behSample
    (run behSample (initState 1 false)
      [Event.submit, Event.submit, Event.submit])
    (wf_run behSample (wf_init 1 false)
      [Event.submit, Event.submit, Event.submit])).1

/-! ## Submission façade: no escaping exceptions, argument currying -/

/-- A sample behaviour whose every invocation throws synchronously. -/
def behThrow : Nat → Invocation := fun _ => .syncThrows 7

/-- A sample behaviour whose every invocation is the plain synchronous
function used in the C10 witness, already curried. -/
def behReturn : Nat → Invocation := fun _ => .syncReturns 5

/-- C5: `submit` (the callable limiter) returns its promise
synchronously and never throws: the call always yields `.ok`, handing
back the fresh promise id with the promise still pending, and a
synchronous throw inside the submitted invocation surfaces only as the
rejection of that promise — with the thrown error wrapped as a task
error — once the task runs and completes. -/
theorem claim_C5 (beh : Nat → Invocation) (fn : CallableShape)
    (args : List Nat) (s : LimiterState) (h : WF s) :
    limitCall fn args s = .ok (submitStep s, s.nextId, fn.applyTo args) ∧
    (submitStep s).promiseState s.nextId = .pending ∧
    (∀ e id, id ∈ s.active → beh id = .syncThrows e →
      (step beh s (Event.complete id)).promiseState id =
        .rejected (.taskError e)) := by
  refine ⟨rfl, ?_, ?_⟩
  · have hnot : s.nextId ∉ s.settled.map Prod.fst := fun hm => by
      have hmem : s.nextId ∈ allIds s := by simp [allIds, hm]
      have := (h.mem_iff s.nextId).mp hmem
      omega
    have hss : (submitStep s).settled = s.settled := rfl
    simp [LimiterState.promiseState, hss, findSettled_eq_none hnot]
  · intro e id hid hbeh
    have hset : (step beh s (Event.complete id)).settled =
        (id, settleOutcome (beh id).outcome) :: s.settled := by
      show (completeStep beh s id).settled = _
      unfold completeStep
      rw [if_pos hid]
      rfl
    simp [LimiterState.promiseState, hset, findSettled_cons_self, hbeh,
      Invocation.outcome, settleOutcome]

theorem claim_C5_witness :
    (step behThrow (run behThrow (initState 1 false) [Event.submit])
      (Event.complete 0)).promiseState 0 = .rejected (.taskError 7) :=
  (claim_C5 behThrow (.asyncFn fun _ => .ok 0) []
    (run behThrow (initState 1 false) [Event.submit])
    (wf_run behThrow (wf_init 1 false) [Event.submit])).2.2 7 0
    (by decide) rfl

/-- C10: the callable limiter accepts a plain synchronous function with
no validation at all — the call always returns `.ok` — the trailing
arguments are curried onto the function, so the wrapped invocation's
outcome is exactly `f args`, and when the task runs and completes the
returned promise is fulfilled with the value `f args` produced. -/
theorem claim_C10 (beh : Nat → Invocation) (f : List Nat → Except Nat Nat)
    (args : List Nat) (s : LimiterState) :
    limitCall (.syncFn f) args s =
      .ok (submitStep s, s.nextId, CallableShape.applyTo (.syncFn f) args) ∧
    (CallableShape.applyTo (.syncFn f) args).outcome = f args ∧
    (∀ v id, f args = .ok v → id ∈ s.active →
      beh id = CallableShape.applyTo (.syncFn f) args →
      (step beh s (Event.complete id)).promiseState id = .fulfilled v) := by
  refine ⟨rfl, ?_, ?_⟩
  · cases hf : f args <;> simp [CallableShape.applyTo, Invocation.outcome, hf]
  · intro v id hv hid hbeh
    have hset : (step beh s (Event.complete id)).settled =
        (id, settleOutcome (beh id).outcome) :: s.settled := by
      show (completeStep beh s id).settled = _
      unfold completeStep
      rw [if_pos hid]
      rfl
    simp [LimiterState.promiseState, hset, findSettled_cons_self, hbeh,
      CallableShape.applyTo, hv, Invocation.outcome, settleOutcome]

theorem claim_C10_witness :
    (step behReturn (run behReturn (initState 1 false) [Event.submit])
      (Event.complete 0)).promiseState 0 = .fulfilled 5 :=
  (claim_C10 behReturn (fun l => .ok (l.headD 0 + 1)) [4]
    (run behReturn (initState 1 false) [Event.submit])).2.2 5 0 rfl
    (by decide) rfl

/-! ## Dynamic concurrency adjustment -/

/-- C6: assigning a valid value to the `concurrency` property takes
effect immediately: the assignment is exactly an update of the limit
followed by one dispatch-loop invocation, so on an increase the freed
capacity is filled from the queue at once with no further external
trigger, while a decrease (a value at or below the current active
count) dispatches nothing and never preempts a running task; concretely,
with concurrency 1 and two submitted tasks (one active, one queued),
setting `concurrency := 2` makes both tasks active. -/
theorem claim_C6 (beh : Nat → Invocation) (s : LimiterState) (n : Nat) :
    (1 ≤ n → step beh s (Event.setConcurrency n) =
      dispatch { s with concurrencyLimit := n }) ∧
    (1 ≤ n → (step beh s (Event.setConcurrency n)).active =
      s.active ++ s.queue.take (min (n - s.activeCount) s.pendingCount)) ∧
    (n ≤ s.activeCount →
      (step beh s (Event.setConcurrency n)).active = s.active) ∧
    (run beh (initState 1 false)
      [Event.submit, Event.submit, Event.setConcurrency 2]).active =
      [0, 1] := by
  refine ⟨?_, ?_, ?_, rfl⟩
  · intro hn
    show setConcurrencyStep s n = _
    unfold setConcurrencyStep
    rw [if_pos hn]
  · intro hn
    show (setConcurrencyStep s n).active = _
    unfold setConcurrencyStep
    rw [if_pos hn]
    rfl
  · intro hle
    show (setConcurrencyStep s n).active = s.active
    unfold setConcurrencyStep
    by_cases hn : 1 ≤ n
    · rw [if_pos hn]
      have h0 : n - s.active.length = 0 := by
        simp only [LimiterState.activeCount] at hle
        omega
      simp [dispatch, h0]
    · rw [if_neg hn]

theorem claim_C6_witness :
    step behSample (run behSample (initState 1 false)
      [Event.submit, Event.submit]) (Event.setConcurrency 2) =
      dispatch { (run behSample (initState 1 false)
        [Event.submit, Event.submit]) with concurrencyLimit := 2 } :=
  (claim_C6 behSample (run behSample (initState 1 false)
    [Event.submit, Event.submit]) 2).1 (by decide)

/-! ## Validation -/

/-- C8: constructing a limiter with a concurrency that is not a
positive integer — zero, negative, or a non-integer — or assigning such
a value to the `concurrency` property, or passing a non-boolean
`rejectOnClear` option, fails synchronously at the call site with a
ValidationError (the construction produces no limiter state at all, so
the error cannot surface in any task's promise), while a positive
integer concurrency is accepted. -/
theorem claim_C8 :
    (∀ n : Int, n ≤ 0 →
      pLimit (.bare (.intVal n)) = .error .validationError) ∧
    (pLimit (.bare .nonIntegerNumber) = .error .validationError) ∧
    (∀ n : Int, n ≤ 0 → ∀ roc,
      pLimit (.options (.intVal n) roc) = .error .validationError) ∧
    (∀ c, pLimit (.options c (some .nonBool)) = .error .validationError) ∧
    (∀ (s : LimiterState) (n : Int), n ≤ 0 →
      setConcurrencyProp s (.intVal n) = .error .validationError) ∧
    (∀ s : LimiterState,
      setConcurrencyProp s .nonIntegerNumber = .error .validationError) ∧
    (∀ n : Int, 1 ≤ n →
      pLimit (.bare (.intVal n)) = .ok (initState n.toNat false)) := by
  refine ⟨?_, rfl, ?_, ?_, ?_, ?_, ?_⟩
  · intro n hn
    simp [pLimit, parseConcurrency, Except.map, if_neg (by omega : ¬ 1 ≤ n)]
  · intro n hn roc
    simp [pLimit, parseConcurrency, if_neg (by omega : ¬ 1 ≤ n)]
  · intro c
    cases c with
    | intVal n =>
        by_cases hn : 1 ≤ n <;>
          simp [pLimit, parseConcurrency, parseRejectOnClear, hn]
    | nonIntegerNumber => simp [pLimit, parseConcurrency, parseRejectOnClear]
  · intro s n hn
    simp [setConcurrencyProp, parseConcurrency, Except.map,
      if_neg (by omega : ¬ 1 ≤ n)]
  · intro s
    simp [setConcurrencyProp, parseConcurrency, Except.map]
  · intro n hn
    simp [pLimit, parseConcurrency, Except.map, if_pos hn]

theorem claim_C8_witness :
    pLimit (.bare (.intVal 0)) = .error .validationError :=
  claim_C8.1 0 (by decide)

/-- C9: the factory adapter `limitFunction` validates at construction
time that the wrapped callable is asynchronous-shaped: a synchronous,
non-promise-returning function is rejected with a ValidationError,
while an asynchronous function (with valid options) yields a fresh
limiter bound to that function. -/
theorem claim_C9 :
    (∀ (f : List Nat → Except Nat Nat) (c : ConcurrencyValue)
      (roc : Option OptionValue),
      limitFunction (.syncFn f) c roc = .error .validationError) ∧
    (∀ (f : List Nat → Except Nat Nat) (n : Int) (b : Bool), 1 ≤ n →
      limitFunction (.asyncFn f) (.intVal n) (some (.boolVal b)) =
        .ok (initState n.toNat b, fun args => .asyncSettles (f args))) := by
  refine ⟨fun f c roc => rfl, ?_⟩
  intro f n b hn
  simp [limitFunction, parseConcurrency, parseRejectOnClear, if_pos hn]

theorem claim_C9_witness :
    limitFunction (.asyncFn (fun l => Except.ok (l.headD 0)))
      (.intVal 1) (some (.boolVal true)) =
      .ok (initState (Int.toNat 1) true,
        fun args => .asyncSettles (Except.ok (args.headD 0))) :=
  claim_C9.2 (fun l => Except.ok (l.headD 0)) 1 true (by decide)

/-! ## map: ordered aggregation with fail-fast rejection -/

/-- Modelled from the spec: the aggregate promise of `map` (§4.2) over
`n` submissions (task ids 0..n-1, submitted in input order), observing
the completions in the order `seq`: it rejects as soon as any single
submission rejects, with that task's error (fail-fast), and if no
submission rejects it resolves with the per-element results in input
order — the order of submission indices — regardless of the completion
order. -/
def mapAggregate (beh : Nat → Invocation) (n : Nat) (seq : List Nat) :
    Except Nat (List Nat) :=
  match seq.findSome? (fun id =>
    match (beh id).outcome with
    | .error e => some e
    | .ok _ => none) with
  | some e => .error e
  | none =>
      .ok ((List.range n).map (fun i => ((beh i).outcome).toOption.getD 0))

/-- A scheduler that repeatedly completes the first task of the
priority list `order` that is currently in flight (`fuel` bounds the
number of rounds).  Returns the final limiter state and the sequence of
completions observed, in order. -/
def drain (beh : Nat → Invocation) (order : List Nat) :
    Nat → LimiterState → LimiterState × List Nat
  | 0, s => (s, [])
  | fuel + 1, s =>
    match order.find? (fun id => decide (id ∈ s.active)) with
    | none => (s, [])
    | some id =>
      let r := drain beh order fuel (step beh s (Event.complete id))
      (r.1, id :: r.2)

theorem drain_succ_none {beh : Nat → Invocation} {order : List Nat}
    {fuel : Nat} {s : LimiterState}
    (hfind : order.find? (fun id => decide (id ∈ s.active)) = none) :
    drain beh order (fuel + 1) s = (s, []) := by
  have h0 : drain beh order (fuel + 1) s =
      match order.find? (fun id => decide (id ∈ s.active)) with
      | none => (s, [])
      | some id =>
          ((drain beh order fuel (step beh s (Event.complete id))).1,
            id :: (drain beh order fuel (step beh s (Event.complete id))).2) :=
    rfl
  rw [h0, hfind]

theorem drain_succ_some {beh : Nat → Invocation} {order : List Nat}
    {fuel : Nat} {s : LimiterState} {id : Nat}
    (hfind : order.find? (fun id => decide (id ∈ s.active)) = some id) :
    drain beh order (fuel + 1) s =
      ((drain beh order fuel (step beh s (Event.complete id))).1,
        id :: (drain beh order fuel (step beh s (Event.complete id))).2) := by
  have h0 : drain beh order (fuel + 1) s =
      match order.find? (fun id => decide (id ∈ s.active)) with
      | none => (s, [])
      | some id =>
          ((drain beh order fuel (step beh s (Event.complete id))).1,
            id :: (drain beh order fuel (step beh s (Event.complete id))).2) :=
    rfl
  rw [h0, hfind]

theorem completeStep_eq (beh : Nat → Invocation) {s : LimiterState}
    {id : Nat} (hid : id ∈ s.active) :
    step beh s (Event.complete id) = dispatch
      { s with active := s.active.erase id,
               settled := (id, settleOutcome (beh id).outcome) ::
                 s.settled } := by
  show completeStep beh s id = _
  unfold completeStep
  rw [if_pos hid]

theorem complete_sum (beh : Nat → Invocation) {s : LimiterState}
    {id : Nat} (hid : id ∈ s.active) :
    (step beh s (Event.complete id)).pendingCount +
      (step beh s (Event.complete id)).activeCount + 1 =
      s.pendingCount + s.activeCount := by
  rw [completeStep_eq beh hid]
  have h1 := dispatch_activeCount
    { s with active := s.active.erase id,
             settled := (id, settleOutcome (beh id).outcome) :: s.settled }
  have h2 := dispatch_pendingCount
    { s with active := s.active.erase id,
             settled := (id, settleOutcome (beh id).outcome) :: s.settled }
  have h3 : (s.active.erase id).length = s.active.length - 1 :=
    List.length_erase_of_mem hid
  have h6 : 0 < s.active.length := List.length_pos_of_mem hid
  simp only [LimiterState.activeCount, LimiterState.pendingCount] at h1 h2 ⊢
  omega

theorem complete_saturate (beh : Nat → Invocation) {s : LimiterState}
    {id : Nat} (hid : id ∈ s.active)
    (hb : s.activeCount ≤ s.concurrencyLimit) :
    (step beh s (Event.complete id)).queue ≠ [] →
      (step beh s (Event.complete id)).activeCount = s.concurrencyLimit := by
  rw [completeStep_eq beh hid]
  intro hne
  refine dispatch_saturates ?_ hne
  show (s.active.erase id).length ≤ s.concurrencyLimit
  exact le_trans (List.Sublist.length_le (List.erase_sublist _ _)) hb

theorem complete_perm (beh : Nat → Invocation) {s : LimiterState}
    {id : Nat} (hid : id ∈ s.active) :
    (id :: ((step beh s (Event.complete id)).queue ++
      (step beh s (Event.complete id)).active)).Perm
      (s.queue ++ s.active) := by
  rw [completeStep_eq beh hid]
  have h1 := perm_dispatch_core s.queue (s.active.erase id)
    (min (s.concurrencyLimit - (s.active.erase id).length) s.queue.length)
  refine (h1.cons id).trans ?_
  refine List.Perm.trans List.perm_middle.symm ?_
  exact List.Perm.append_left _ (List.perm_cons_erase hid).symm

theorem mem_keys_of_findSettled {st : List (Nat × SettledResult)}
    {id : Nat} {r : SettledResult} (h : findSettled st id = some r) :
    id ∈ st.map Prod.fst := by
  induction st with
  | nil => simp [findSettled] at h
  | cons p rest ih =>
    obtain ⟨i, r2⟩ := p
    by_cases he : i = id
    · subst he
      simp
    · have h2 : (if i = id then some r2 else findSettled rest id) = some r := h
      rw [if_neg he] at h2
      simp only [List.map_cons, List.mem_cons]
      exact Or.inr (ih h2)

theorem promiseState_of_findSettled {s : LimiterState} {id : Nat}
    {r : SettledResult} (h : findSettled s.settled id = some r) :
    s.promiseState id = settledToPromise r := by
  cases r <;> simp [LimiterState.promiseState, h, settledToPromise]

theorem complete_settled_preserve (beh : Nat → Invocation)
    {s : LimiterState} (h : WF s) (id : Nat) {x : Nat} {r : SettledResult}
    (hx : findSettled s.settled x = some r) :
    findSettled (step beh s (Event.complete id)).settled x = some r := by
  by_cases hid : id ∈ s.active
  · rw [completeStep_eq beh hid]
    have hxk : x ∈ s.settled.map Prod.fst := mem_keys_of_findSettled hx
    have hne : ¬ id = x := fun he =>
      ((wf_disjoint h).2.1 hid).2.1 (by rw [he]; exact hxk)
    show findSettled
      ((id, settleOutcome (beh id).outcome) :: s.settled) x = some r
    simp [findSettled, hne, hx]
  · have hs : step beh s (Event.complete id) = s := by
      show completeStep beh s id = s
      unfold completeStep
      rw [if_neg hid]
    rw [hs]
    exact hx

theorem complete_settles_self (beh : Nat → Invocation) {s : LimiterState}
    {id : Nat} (hid : id ∈ s.active) :
    findSettled (step beh s (Event.complete id)).settled id =
      some (settleOutcome (beh id).outcome) := by
  rw [completeStep_eq beh hid]
  exact findSettled_cons_self _ _ _

/-- The drain scheduler runs every queued and in-flight task to
completion: starting from any well-formed state whose limit is
positive, whose active count respects the limit and which is saturated
(a non-empty queue implies a full active set — true of every state the
dispatch loop has just left), with enough fuel and a priority list
covering all live tasks, it ends with empty queue and active set, the
observed completion sequence is a permutation of the live tasks, every
live task ends settled according to its own outcome, and previously
settled results are preserved. -/
theorem drain_spec (beh : Nat → Invocation) (order : List Nat) :
    ∀ (fuel : Nat) (s : LimiterState), WF s →
      s.activeCount ≤ s.concurrencyLimit →
      1 ≤ s.concurrencyLimit →
      (s.queue ≠ [] → s.activeCount = s.concurrencyLimit) →
      (∀ x, x ∈ s.queue ++ s.active → x ∈ order) →
      s.pendingCount + s.activeCount ≤ fuel →
      ((drain beh order fuel s).1.queue = [] ∧
        (drain beh order fuel s).1.active = []) ∧
      (drain beh order fuel s).2.Perm (s.queue ++ s.active) ∧
      (∀ x, x ∈ s.queue ++ s.active →
        findSettled (drain beh order fuel s).1.settled x =
          some (settleOutcome (beh x).outcome)) ∧
      (∀ x r, findSettled s.settled x = some r →
        findSettled (drain beh order fuel s).1.settled x = some r) := by
  intro fuel
  induction fuel with
  | zero =>
    intro s hwf hb hl hsat hsub hfuel
    simp only [LimiterState.pendingCount, LimiterState.activeCount] at hfuel
    have hq : s.queue = [] := List.length_eq_zero.mp (by omega)
    have ha : s.active = [] := List.length_eq_zero.mp (by omega)
    refine ⟨⟨hq, ha⟩, ?_, ?_, fun x r hr => hr⟩
    · rw [hq, ha]
      exact List.Perm.refl _
    · intro x hx
      rw [hq, ha] at hx
      simp at hx
  | succ fuel ih =>
    intro s hwf hb hl hsat hsub hfuel
    rcases hfind : order.find? (fun id => decide (id ∈ s.active)) with _ | id
    · -- no live in-flight task: the state is already quiescent
      have hact : s.active = [] := by
        rcases hae : s.active with _ | ⟨a0, rest⟩
        · rfl
        · exfalso
          have ha0 : a0 ∈ s.active := by rw [hae]; exact List.mem_cons_self _ _
          have := List.find?_eq_none.mp hfind a0
            (hsub a0 (List.mem_append_right _ ha0))
          simp [ha0] at this
      have hq : s.queue = [] := by
        by_contra hqne
        have hceq := hsat hqne
        simp only [LimiterState.activeCount, hact, List.length_nil] at hceq
        omega
      have hdrain : drain beh order (fuel + 1) s = (s, []) :=
        drain_succ_none hfind
      rw [hdrain]
      refine ⟨⟨hq, hact⟩, ?_, ?_, fun x r hr => hr⟩
      · rw [hq, hact]
        exact List.Perm.refl _
      · intro x hx
        rw [hq, hact] at hx
        simp at hx
    · -- complete the first in-flight task of the priority list
      have hid : id ∈ s.active := by
        have := List.find?_some hfind
        simpa using this
      have hdrain : drain beh order (fuel + 1) s =
          ((drain beh order fuel (step beh s (Event.complete id))).1,
            id :: (drain beh order fuel
              (step beh s (Event.complete id))).2) :=
        drain_succ_some hfind
      have hwf' : WF (step beh s (Event.complete id)) :=
        wf_complete beh id hwf
      have hnoset : ∀ n, Event.complete id ≠ Event.setConcurrency n :=
        fun n h => Event.noConfusion h
      have hb' := step_bound beh hnoset hb
      have hlim : (step beh s (Event.complete id)).concurrencyLimit =
          s.concurrencyLimit := step_limit beh s _ hnoset
      have hl' : 1 ≤ (step beh s (Event.complete id)).concurrencyLimit := by
        rw [hlim]
        exact hl
      have hsat' : (step beh s (Event.complete id)).queue ≠ [] →
          (step beh s (Event.complete id)).activeCount =
            (step beh s (Event.complete id)).concurrencyLimit := by
        intro hne
        rw [hlim]
        exact complete_saturate beh hid hb hne
      have hsub' : ∀ x, x ∈ (step beh s (Event.complete id)).queue ++
          (step beh s (Event.complete id)).active → x ∈ order := by
        intro x hx
        exact hsub x (((complete_perm beh hid).mem_iff).mp
          (List.mem_cons_of_mem id hx))
      have hfuel' : (step beh s (Event.complete id)).pendingCount +
          (step beh s (Event.complete id)).activeCount ≤ fuel := by
        have hsum := complete_sum beh hid
        omega
      obtain ⟨hfin, hperm, hsettle, hpres⟩ :=
        ih (step beh s (Event.complete id)) hwf' hb' hl' hsat' hsub' hfuel'
      rw [hdrain]
      refine ⟨hfin, ?_, ?_, ?_⟩
      · exact (hperm.cons id).trans (complete_perm beh hid)
      · intro x hx
        by_cases hxe : x = id
        · subst hxe
          exact hpres x _ (complete_settles_self beh hid)
        · have hx' : x ∈ (step beh s (Event.complete id)).queue ++
              (step beh s (Event.complete id)).active := by
            have := ((complete_perm beh hid).symm.mem_iff).mp hx
            rcases List.mem_cons.mp this with he | hm
            · exact absurd he hxe
            · exact hm
          exact hsettle x hx'
      · intro x r hr
        exact hpres x r (complete_settled_preserve beh hwf id hr)

theorem run_append (beh : Nat → Invocation) (s : LimiterState)
    (l₁ l₂ : List Event) :
    run beh s (l₁ ++ l₂) = run beh (run beh s l₁) l₂ := by
  induction l₁ generalizing s with
  | nil => rfl
  | cons e es ih => simp [run, ih]

/-- The state after `m` bare submissions into a fresh limiter: `m` ids
issued, nothing settled or discarded, the limit untouched, the active
count within the limit, and the state saturated (a non-empty queue
means a full active set). -/
theorem submits_state (beh : Nat → Invocation) (C : Nat) (roc : Bool) :
    ∀ m : Nat,
      (run beh (initState C roc) (List.replicate m Event.submit)).nextId = m ∧
      (run beh (initState C roc) (List.replicate m Event.submit)).settled
        = [] ∧
      (run beh (initState C roc) (List.replicate m Event.submit)).discarded
        = [] ∧
      (run beh (initState C roc)
        (List.replicate m Event.submit)).concurrencyLimit = C ∧
      (run beh (initState C roc)
        (List.replicate m Event.submit)).activeCount ≤ C ∧
      ((run beh (initState C roc) (List.replicate m Event.submit)).queue
        ≠ [] →
        (run beh (initState C roc)
          (List.replicate m Event.submit)).activeCount = C) := by
  intro m
  induction m with
  | zero =>
    refine ⟨rfl, rfl, rfl, rfl,
      by simp [run, initState, LimiterState.activeCount],
      fun h => absurd rfl h⟩
  | succ m ih =>
    obtain ⟨h1, h2, h3, h4, h5, h6⟩ := ih
    rw [List.replicate_succ', run_append]
    set t := run beh (initState C roc) (List.replicate m Event.submit) with ht
    have hstep : run beh t [Event.submit] = submitStep t := rfl
    rw [hstep]
    have hb : t.activeCount ≤ t.concurrencyLimit := by
      rw [h4]
      exact h5
    refine ⟨?_, h2, h3, h4, ?_, ?_⟩
    · show t.nextId + 1 = m + 1
      rw [h1]
    · have hthis : (submitStep t).activeCount ≤
          (submitStep t).concurrencyLimit := dispatch_bound hb
      have hl2 : (submitStep t).concurrencyLimit = C := h4
      omega
    · intro hne
      have hsatr : (submitStep t).activeCount = t.concurrencyLimit :=
        dispatch_saturates hb hne
      rw [hsatr, h4]

/-- Modelled from the spec: a complete run of `limiter.map` over `n`
inputs through a limiter of concurrency `C`: the `n` submissions
(ids 0..n-1, one per input element, in input order) are made through
the limiter, then the environment settles in-flight tasks — choosing
which of the currently running tasks finishes next by the priority list
`order`, an arbitrary permutation of the inputs — until quiescence.
Returns the final limiter state and the observed completion
sequence. -/
def mapRun (beh : Nat → Invocation) (C n : Nat) (order : List Nat) :
    LimiterState × List Nat :=
  drain beh order n (run beh (initState C false) (List.replicate n Event.submit))

/-- C4: for every input length `n`, concurrency `C ≥ 1` and any
completion order, the map run settles every submission according to its
own outcome (already-running siblings keep running to completion even
when the aggregate has already rejected) and leaks no counts (final
`activeCount` and `pendingCount` are zero, every task completing
exactly once); the aggregate promise resolves — whenever every
submission fulfils — with the per-element results in input order,
regardless of the completion order, and rejects with the error of the
first failing task to complete (fail-fast) as soon as one rejects. -/
theorem claim_C4 (beh : Nat → Invocation) (C : Nat) (hC : 1 ≤ C) (n : Nat)
    (order : List Nat) (horder : order.Perm (List.range n)) :
    ((mapRun beh C n order).2).Perm (List.range n) ∧
    (mapRun beh C n order).1.activeCount = 0 ∧
    (mapRun beh C n order).1.pendingCount = 0 ∧
    (∀ id, id < n → (mapRun beh C n order).1.promiseState id =
      settledToPromise (settleOutcome (beh id).outcome)) ∧
    ((∀ i, i < n → ∃ v, (beh i).outcome = .ok v) →
      mapAggregate beh n (mapRun beh C n order).2 =
        .ok ((List.range n).map (fun i => ((beh i).outcome).toOption.getD 0))) ∧
    (∀ (seq₁ : List Nat) (id : Nat) (seq₂ : List Nat) (e : Nat),
      (mapRun beh C n order).2 = seq₁ ++ id :: seq₂ →
      (∀ j, j ∈ seq₁ → ∃ v, (beh j).outcome = .ok v) →
      (beh id).outcome = .error e →
      mapAggregate beh n (mapRun beh C n order).2 = .error e) := by
  obtain ⟨h1, h2, h3, h4, h5, h6⟩ := submits_state beh C false n
  have hwf : WF (run beh (initState C false) (List.replicate n Event.submit)) :=
    wf_run beh (wf_init C false) _
  generalize hstart :
    run beh (initState C false) (List.replicate n Event.submit) = start
      at h1 h2 h3 h4 h5 h6 hwf
  have hmr : mapRun beh C n order = drain beh order n start := by
    rw [mapRun, hstart]
  have hqa_sub : (start.queue ++ start.active).Sublist (allIds start) :=
    (List.sublist_append_left (start.queue ++ start.active)
      (start.settled.map Prod.fst)).trans
      (List.sublist_append_left _ start.discarded)
  have hnodup_qa : (start.queue ++ start.active).Nodup :=
    hqa_sub.nodup hwf.nodup
  have hmemiff : ∀ x, x ∈ start.queue ++ start.active ↔
      x ∈ List.range n := by
    intro x
    constructor
    · intro hx
      rw [List.mem_range, ← h1]
      refine (hwf.mem_iff x).mp ?_
      rcases List.mem_append.mp hx with hx | hx
      · exact queue_subset_allIds hx
      · exact active_subset_allIds hx
    · intro hx
      have hlt := List.mem_range.mp hx
      have hall : x ∈ allIds start := (hwf.mem_iff x).mpr (by rw [h1]; exact hlt)
      simp only [allIds, h2, h3, List.map_nil, List.append_nil,
        List.mem_append] at hall
      exact List.mem_append.mpr hall
  have hperm_qa : (start.queue ++ start.active).Perm (List.range n) :=
    (List.perm_ext_iff_of_nodup hnodup_qa (List.nodup_range n)).mpr hmemiff
  have hlen : start.queue.length + start.active.length = n := by
    have := hperm_qa.length_eq
    simpa [List.length_append, List.length_range] using this
  have hfuel : start.pendingCount + start.activeCount ≤ n := by
    simp only [LimiterState.pendingCount, LimiterState.activeCount]
    omega
  have hsub : ∀ x, x ∈ start.queue ++ start.active → x ∈ order :=
    fun x hx => (horder.mem_iff).mpr ((hmemiff x).mp hx)
  have hb : start.activeCount ≤ start.concurrencyLimit := by
    rw [h4]
    exact h5
  have hl : 1 ≤ start.concurrencyLimit := by
    rw [h4]
    exact hC
  have hsat : start.queue ≠ [] →
      start.activeCount = start.concurrencyLimit := fun hne => by
    rw [h4]
    exact h6 hne
  obtain ⟨⟨hfq, hfa⟩, hseqperm, hsettle, _⟩ :=
    drain_spec beh order n start hwf hb hl hsat hsub hfuel
  have hseq : ((mapRun beh C n order).2).Perm (List.range n) := by
    rw [hmr]
    exact hseqperm.trans hperm_qa
  refine ⟨hseq, ?_, ?_, ?_, ?_, ?_⟩
  · rw [hmr]
    simp [LimiterState.activeCount, hfa]
  · rw [hmr]
    simp [LimiterState.pendingCount, hfq]
  · intro id hid
    rw [hmr]
    refine promiseState_of_findSettled (hsettle id ?_)
    exact (hmemiff id).mpr (List.mem_range.mpr hid)
  · intro hallok
    have hnone : ((mapRun beh C n order).2).findSome? (fun id =>
        match (beh id).outcome with
        | .error e => some e
        | .ok _ => none) = none := by
      refine List.findSome?_eq_none_iff.mpr ?_
      intro x hx
      have hxn : x < n := List.mem_range.mp ((hseq.mem_iff).mp hx)
      obtain ⟨v, hv⟩ := hallok x hxn
      simp [hv]
    rw [mapAggregate, hnone]
  · intro seq₁ id seq₂ e hdecomp hok hide
    have hsome : ((mapRun beh C n order).2).findSome? (fun id =>
        match (beh id).outcome with
        | .error e => some e
        | .ok _ => none) = some e := by
      rw [hdecomp, List.findSome?_append]
      have hnone1 : seq₁.findSome? (fun id =>
          match (beh id).outcome with
          | .error e => some e
          | .ok _ => none) = none := by
        refine List.findSome?_eq_none_iff.mpr ?_
        intro x hx
        obtain ⟨v, hv⟩ := hok x hx
        simp [hv]
      rw [hnone1, List.findSome?_cons, hide]
      rfl
    rw [mapAggregate, hsome]

theorem claim_C4_witness :
    (mapRun behSample 2 3 [2, 0, 1]).1.activeCount = 0 ∧
    (mapRun behSample 2 3 [2, 0, 1]).1.pendingCount = 0 :=
  ⟨(claim_C4 behSample 2 (by decide) 3 [2, 0, 1] (by decide)).2.1,
    (claim_C4 behSample 2 (by decide) 3 [2, 0, 1] (by decide)).2.2.1⟩

end PLimit
